import Mathlib

/-!
Shallow embedding of the core of the `lzma-rust2` crate (version 0.13.0):
the LZMA range decoder (`src/range_dec.rs`), the coder state machine
(`src/state.rs`), the XZ variable-length integer codec (`src/xz.rs`),
the LZMA2 chunk emission logic (`src/enc/lzma2_writer.rs`), the lzip
dictionary-size byte decoder (`src/lzip.rs`), the work-pool result
reordering (`src/work_pool.rs`) and the match-extension helper
(`src/lz/mod.rs`).  Machine integers are modelled as `Nat` with explicit
`% 2 ^ 32` (resp. `% 2 ^ 16`) wherever the Rust code relies on wrapping
behaviour; byte streams are modelled as `List Nat` with every element
below 256.
-/

namespace LzmaRust

/-- Modulus of the Rust `u32` type. -/
def U32 : Nat := 2 ^ 32

/-- Modulus of the Rust `u16` type. -/
def U16 : Nat := 2 ^ 16

/-- Constant `SHIFT_BITS` from `src/lib.rs`. -/
def SHIFT_BITS : Nat := 8

/-- Constant `BIT_MODEL_TOTAL_BITS` from `src/lib.rs`. -/
def BIT_MODEL_TOTAL_BITS : Nat := 11

/-- Constant `BIT_MODEL_TOTAL = 1 << 11 = 2048` from `src/lib.rs`. -/
def BIT_MODEL_TOTAL : Nat := 1 <<< BIT_MODEL_TOTAL_BITS

/-- Constant `PROB_INIT = BIT_MODEL_TOTAL / 2 = 1024` from `src/lib.rs`. -/
def PROB_INIT : Nat := BIT_MODEL_TOTAL / 2

/-- Constant `MOVE_BITS` from `src/lib.rs`. -/
def MOVE_BITS : Nat := 5

/-- Constant `TOP_VALUE` from `src/lib.rs`. -/
def TOP_VALUE : Nat := 0x01000000

/-- Constant `RC_BIT_MODEL_OFFSET` from `src/lib.rs`:
`(1u32 << MOVE_BITS).wrapping_sub(1).wrapping_sub(BIT_MODEL_TOTAL)`,
i.e. `(2^5 - 1) - 2048` computed in wrapping `u32` arithmetic. -/
def RC_BIT_MODEL_OFFSET : Nat := ((1 <<< MOVE_BITS) - 1 + U32 - BIT_MODEL_TOTAL) % U32

/-- Function `init_probs` from `src/lib.rs`: `probs.fill(PROB_INIT)` on a
table of `n` probabilities. -/
def init_probs (n : Nat) : List Nat := List.replicate n PROB_INIT

/-- Branchless `RangeDecoder::decode_bit` from `src/range_dec.rs`
(lines 67-83), after the initial `normalize` call: given the
post-normalize `range` and `code` registers and the current probability
`prob`, returns `(bit, range, code, prob)` exactly as the Rust code
computes them with its mask-based wrapping-`u32` arithmetic and the final
truncation of the probability to `u16`. -/
def decode_bit (range code prob : Nat) : Nat × Nat × Nat × Nat :=
  let bound := (range >>> BIT_MODEL_TOTAL_BITS) * prob
  let mask := (U32 - (if bound ≤ code then 1 else 0)) % U32
  let nmask := (U32 - 1) - mask
  let range2 := (bound &&& nmask) ||| ((range - bound) &&& mask)
  let code2 := code - (bound &&& mask)
  let offset := RC_BIT_MODEL_OFFSET &&& nmask
  let t := ((prob + offset) % U32) >>> MOVE_BITS
  let prob2 := ((prob + (U32 - t)) % U32) % U16
  (mask &&& 1, range2, code2, prob2)

/-- Modelled from the spec: the reference definition of `decode_bit`
(after `normalize`): compute `bound = (range >> 11) * prob`; if
`code < bound` return bit 0 with `range = bound` and
`prob += (2048 - prob) >> 5`; otherwise return bit 1 with
`range -= bound`, `code -= bound` and `prob -= prob >> 5`. -/
def decode_bit_ref (range code prob : Nat) : Nat × Nat × Nat × Nat :=
  let bound := (range >>> 11) * prob
  if code < bound then
    (0, bound, code, prob + ((2048 - prob) >>> 5))
  else
    (1, range - bound, code - bound, prob - (prob >>> 5))

/-- Constant `STATES` from `src/state.rs`. -/
def STATES : Nat := 12

/-- Constant `LIT_STATES` from `src/state.rs`. -/
def LIT_STATES : Nat := 7

/-- Function `State::update_literal` from `src/state.rs`:
`if state <= 3 { 0 } else if state <= 9 { state - 3 } else { state - 6 }`. -/
def update_literal (s : Nat) : Nat :=
  if s ≤ 3 then 0 else if s ≤ 9 then s - 3 else s - 6

/-- Function `State::update_match` from `src/state.rs`:
`if state < 7 { 7 } else { 10 }`. -/
def update_match (s : Nat) : Nat := if s < LIT_STATES then 7 else 10

/-- Function `State::update_long_rep` from `src/state.rs`:
`if state < 7 { 8 } else { 11 }`. -/
def update_long_rep (s : Nat) : Nat := if s < LIT_STATES then 8 else 11

/-- Function `State::update_short_rep` from `src/state.rs`:
`if state < 7 { 9 } else { 11 }`. -/
def update_short_rep (s : Nat) : Nat := if s < LIT_STATES then 9 else 11

/-- Function `State::is_literal` from `src/state.rs`: `state < 7`. -/
def is_literal (s : Nat) : Bool := s < LIT_STATES

/-- The four state-update operations of the coder state machine. -/
inductive StateOp : Type
  | literal : StateOp
  | matchOp : StateOp
  | longRep : StateOp
  | shortRep : StateOp

/-- Apply one state-update operation. -/
def applyOp : StateOp → Nat → Nat
  | StateOp.literal, s => update_literal s
  | StateOp.matchOp, s => update_match s
  | StateOp.longRep, s => update_long_rep s
  | StateOp.shortRep, s => update_short_rep s

/-- Apply a finite sequence of state-update operations, left to right. -/
def applyOps (ops : List StateOp) (s : Nat) : Nat :=
  ops.foldl (fun t op => applyOp op t) s

/-- Loop body of `parse_multibyte_integer` from `src/xz.rs` (lines
239-257): state is the accumulated `result` and the current `shift`. -/
def parseMBIGo : List Nat → Nat → Nat → Option Nat
  | [], _, _ => none
  | byte :: rest, result, shift =>
    if 63 ≤ shift then none
    else
      let result2 := result ||| ((byte &&& 0x7F) <<< shift)
      if byte &&& 0x80 = 0 then some result2
      else parseMBIGo rest result2 (shift + 7)

/-- Function `parse_multibyte_integer` from `src/xz.rs`: decode an XZ
variable-length integer from a byte slice; `none` models the two error
returns (value too large, or incomplete input). -/
def parse_multibyte_integer (data : List Nat) : Option Nat :=
  parseMBIGo data 0 0

/-- Loop of `count_multibyte_integer_size_for_value` from `src/xz.rs`:
`while value > 0 { count += 1; value >>= 7 }`. -/
def countDigits7 (v : Nat) : Nat :=
  if h : v = 0 then 0
  else countDigits7 (v >>> 7) + 1
termination_by v
decreasing_by
  simp only [Nat.shiftRight_eq_div_pow]
  exact Nat.div_lt_self (Nat.pos_of_ne_zero h) (by norm_num)

/-- Function `count_multibyte_integer_size_for_value` from `src/xz.rs`. -/
def count_multibyte_integer_size_for_value (v : Nat) : Nat :=
  if v = 0 then 1 else countDigits7 v

/-- Write loop of `encode_multibyte_integer` from `src/xz.rs` (lines
305-323): `cap` is the remaining buffer capacity `buf.len() - i`; while
`value >= 0x80` and capacity remains, emit `(value as u8) | 0x80` and
shift; finally emit `value as u8` if capacity remains.  Returns the list
of bytes written. -/
def encodeMBIGo : Nat → Nat → List Nat
  | _, 0 => []
  | value, cap + 1 =>
    if 0x80 ≤ value then ((value % 256) ||| 0x80) :: encodeMBIGo (value >>> 7) cap
    else [value % 256]

/-- Function `encode_multibyte_integer` from `src/xz.rs`: fails when
`value > u64::MAX / 2`; otherwise writes the base-128 little-endian
encoding into a buffer of length `bufLen` and returns the bytes
written. -/
def encode_multibyte_integer (value bufLen : Nat) : Option (List Nat) :=
  if (2 ^ 64 - 1) / 2 < value then none
  else some (encodeMBIGo value bufLen)

/-- Constant `COMPRESSED_SIZE_MAX = 64 << 10` from
`src/enc/lzma2_writer.rs`. -/
def COMPRESSED_SIZE_MAX : Nat := 64 <<< 10

/-- Chunk-kind dispatch of `Lzma2Writer::write_chunk` from
`src/enc/lzma2_writer.rs` (lines 348-371): the pending chunk is written
as an LZMA (compressed) chunk exactly when
`compressed_size + 2 < uncompressed_size`; otherwise the writer rewinds
and emits uncompressed chunks. -/
def write_chunk_is_lzma (compressed_size uncompressed_size : Nat) : Bool :=
  compressed_size + 2 < uncompressed_size

/-- Chunk sizes produced by the loop of `Lzma2Writer::write_uncompressed`
from `src/enc/lzma2_writer.rs` (lines 328-346):
`while uncompressed_size > 0 { chunk = min(uncompressed_size, 64 KiB); … }`. -/
def uncompressed_chunk_sizes (uncompressed_size : Nat) : List Nat :=
  if h : uncompressed_size = 0 then []
  else
    let chunk := min uncompressed_size COMPRESSED_SIZE_MAX
    chunk :: uncompressed_chunk_sizes (uncompressed_size - chunk)
termination_by uncompressed_size
decreasing_by
  have h1 : 0 < uncompressed_size := Nat.pos_of_ne_zero h
  have h2 : 0 < min uncompressed_size COMPRESSED_SIZE_MAX := by
    simp only [COMPRESSED_SIZE_MAX]
    omega
  omega

/-- Constant `MIN_DICT_SIZE = 4 * 1024` from `src/lzip.rs`. -/
def MIN_DICT_SIZE : Nat := 4 * 1024

/-- Constant `MAX_DICT_SIZE = 512 * 1024 * 1024` from `src/lzip.rs`. -/
def MAX_DICT_SIZE : Nat := 512 * 1024 * 1024

/-- Function `decode_dict_size` from `src/lzip.rs` (lines 99-125): the
low 5 bits of the encoded byte are the base-2 logarithm of the base
size, the high 3 bits the fraction numerator; errors are modelled as
`Except.error` with the source's message. -/
def decode_dict_size (encoded : Nat) : Except String Nat :=
  let base_log2 := encoded &&& 0x1F
  let fraction_num := encoded >>> 5
  if ¬ (12 ≤ base_log2 ∧ base_log2 ≤ 29) then
    Except.error "invalid LZIP dictionary size base"
  else if 7 < fraction_num then
    Except.error "invalid LZIP dictionary size fraction"
  else
    let base_size := 1 <<< base_log2
    let fraction_size := if 4 ≤ base_log2 then (base_size >>> 4) * fraction_num else 0
    let dict_size := base_size - fraction_size
    if ¬ (MIN_DICT_SIZE ≤ dict_size ∧ dict_size ≤ MAX_DICT_SIZE) then
      Except.error "LZIP dictionary size out of range"
    else
      Except.ok dict_size

instance : DecidableEq (Except String Nat) := fun a b =>
  match a, b with
  | Except.ok x, Except.ok y => decidable_of_iff (x = y) (by simp)
  | Except.error x, Except.error y => decidable_of_iff (x = y) (by simp)
  | Except.ok _, Except.error _ => isFalse (by simp)
  | Except.error _, Except.ok _ => isFalse (by simp)

/-- Dictionary size formula of the claim for a given encoded byte:
`(1 << base_log2) - frac * (1 << (base_log2 - 4))`. -/
def dict_size_formula (encoded : Nat) : Nat :=
  (1 <<< (encoded &&& 0x1F)) - (encoded >>> 5) * (1 <<< ((encoded &&& 0x1F) - 4))

/-- State of `RangeDecoderBuffer` from `src/range_dec.rs`: the bounded
compressed-byte buffer and the read position. -/
structure RangeDecoderBuffer where
  buf : List Nat
  pos : Nat

/-- State of `RangeDecoder<RangeDecoderBuffer>` from `src/range_dec.rs`. -/
structure BufRangeDecoder where
  inner : RangeDecoderBuffer
  code : Nat
  range : Nat

/-- Function `RangeDecoder::new_buffer` from `src/range_dec.rs`:
`RangeDecoderBuffer::new(size - 5)` starts with a zero-filled buffer of
`size - 5` bytes and `pos` at the end. -/
def new_buffer (size : Nat) : BufRangeDecoder :=
  { inner := { buf := List.replicate (size - 5) 0, pos := size - 5 }, code := 0, range := 0 }

/-- Big-endian `read_u32_be` over a byte list: consumes four bytes. -/
def read_u32_be : List Nat → Option (Nat × List Nat)
  | b0 :: b1 :: b2 :: b3 :: rest => some (((b0 * 256 + b1) * 256 + b2) * 256 + b3, rest)
  | _ => none

/-- Function `RangeDecoder::new_stream` from `src/range_dec.rs` (lines
38-55): the first input byte must be `0x00`, the next four bytes are the
big-endian initial `code`, and `range` starts at `0xFFFFFFFF`.  Returns
`(code, range, remaining input)`. -/
def new_stream (input : List Nat) : Except String (Nat × Nat × List Nat) :=
  match input with
  | [] => Except.error "eof"
  | b :: rest =>
    if b ≠ 0 then Except.error "range decoder first byte is not zero"
    else
      match read_u32_be rest with
      | none => Except.error "eof"
      | some (code, rest2) => Except.ok (code, 0xFFFFFFFF, rest2)

/-- Function `RangeDecoder::prepare` from `src/range_dec.rs` (lines
348-369): fails when the declared chunk length is below 5; otherwise the
first compressed byte must be `0x00`, the next four bytes initialise
`code`, `range` is reset, and the last `len - 5` bytes of the buffer are
filled from the reader. -/
def prepare (s : BufRangeDecoder) (reader : List Nat) (len : Nat) :
    Except String BufRangeDecoder :=
  if len < 5 then Except.error "buffer len must >= 5"
  else
    match reader with
    | [] => Except.error "eof"
    | b :: rest =>
      if b ≠ 0 then Except.error "first byte is 0"
      else
        match read_u32_be rest with
        | none => Except.error "eof"
        | some (code, rest2) =>
          let len2 := len - 5
          let pos := s.inner.buf.length - len2
          if rest2.length < len2 then Except.error "eof"
          else
            Except.ok
              { inner :=
                  { buf := s.inner.buf.take pos ++ rest2.take len2 ++
                      s.inner.buf.drop (pos + len2),
                    pos := pos },
                code := code,
                range := 0xFFFFFFFF }

/-- Function `RangeDecoder::is_finished` from `src/range_dec.rs` (lines
372-375): `pos == buf.len() && code == 0`. -/
def is_finished (s : BufRangeDecoder) : Bool :=
  s.inner.pos == s.inner.buf.length && s.code == 0

/-- Buffered `RangeReader::read_u8` from `src/range_dec.rs` (lines
444-455): `*self.buf.get(self.pos).unwrap_or(&1)` followed by
`self.pos += 1` — out-of-bound reads yield the byte 1, never an error. -/
def buffer_read_u8 (b : RangeDecoderBuffer) : Nat × RangeDecoderBuffer :=
  (b.buf.getD b.pos 1, { buf := b.buf, pos := b.pos + 1 })

/-- Streaming `RangeReader::read_u8` from `src/range_dec.rs` (lines
415-428): `read_exact` of one byte, with any error mapped to the byte 1.
The stream is modelled as the list of bytes not yet consumed. -/
def stream_read_u8 : List Nat → Nat × List Nat
  | [] => (1, [])
  | b :: rest => (b, rest)

/-- Coordinator state of `WorkPool` from `src/work_pool.rs`:
`next_index_to_return` and the keys of the `out_of_order_results`
map. -/
structure PoolState where
  nextIndexToReturn : Nat
  outOfOrder : List Nat

/-- Delivery loop of `try_get_result` / `get_result` from
`src/work_pool.rs`: while the next expected sequence index is buffered in
`out_of_order_results`, remove it and return it, advancing
`next_index_to_return`.  Returns the new index, the remaining buffer and
the delivered indices in order. -/
def drainPool (next : Nat) (buffer : List Nat) : Nat × List Nat × List Nat :=
  if h : next ∈ buffer then
    let r := drainPool (next + 1) (buffer.erase next)
    (r.1, r.2.1, next :: r.2.2)
  else (next, buffer, [])
termination_by buffer.length
decreasing_by
  rw [List.length_erase_of_mem h]
  exact Nat.sub_lt (List.length_pos.mpr (List.ne_nil_of_mem h)) Nat.one_pos

/-- One completed work item `(seq, result)` arrives from a worker
(`result_rx.recv()` in `src/work_pool.rs` lines 145-293): if `seq` is the
next index to return it is delivered immediately — followed by every
buffered successor — otherwise it is inserted into
`out_of_order_results`.  Returns the new state and the indices delivered
to the caller. -/
def poolStep (s : PoolState) (seq : Nat) : PoolState × List Nat :=
  if seq = s.nextIndexToReturn then
    let r := drainPool (s.nextIndexToReturn + 1) s.outOfOrder
    ({ nextIndexToReturn := r.1, outOfOrder := r.2.1 }, seq :: r.2.2)
  else
    ({ s with outOfOrder := seq :: s.outOfOrder }, [])

/-- Run the coordinator over a whole sequence of worker completions,
concatenating everything delivered to the caller. -/
def runPool : List Nat → PoolState → PoolState × List Nat
  | [], s => (s, [])
  | a :: rest, s =>
    let r1 := poolStep s a
    let r2 := runPool rest r1.1
    (r2.1, r1.2 ++ r2.2)

/-- Word size used by `extend_match_safe` in `src/lz/mod.rs`
(`size_of::<usize>()` on a 64-bit target). -/
def WORD_SIZE : Nat := 8

/-- Little-endian word value of a byte list
(`usize::from_ne_bytes` on a little-endian target). -/
def wordLE : List Nat → Nat
  | [] => 0
  | b :: rest => b + 256 * wordLE rest

/-- Trailing-zero count of a positive natural number
(`u64::trailing_zeros` in `src/lz/mod.rs`; the source only applies it to
the nonzero XOR of two differing words). -/
def ctz (n : Nat) : Nat :=
  if n = 0 then 0
  else if n % 2 = 1 then 0 else ctz (n / 2) + 1
termination_by n
decreasing_by
  rename_i h _
  exact Nat.div_lt_self (Nat.pos_of_ne_zero h) (by norm_num)

/-- Byte-by-byte common-prefix length of two byte slices: both the tail
loop of `extend_match_safe` (`while matched < len && s1[matched] == s2[matched]`)
and the specification the claim compares against. -/
def commonPrefixLen : List Nat → List Nat → Nat
  | a :: x, b :: y => if a = b then commonPrefixLen x y + 1 else 0
  | _, _ => 0

/-- Function `extend_match_safe` from `src/lz/mod.rs` (lines 47-86):
word-at-a-time comparison of two byte slices; on the first differing
word the number of matching bytes is recovered as
`(word1 ^ word2).trailing_zeros() / 8`; fewer than `WORD_SIZE` remaining
bytes are compared one at a time. -/
def extend_match_safe (s1 s2 : List Nat) : Nat :=
  if h : WORD_SIZE ≤ min s1.length s2.length then
    let w1 := wordLE (s1.take WORD_SIZE)
    let w2 := wordLE (s2.take WORD_SIZE)
    if w1 = w2 then WORD_SIZE + extend_match_safe (s1.drop WORD_SIZE) (s2.drop WORD_SIZE)
    else ctz (w1 ^^^ w2) / 8
  else commonPrefixLen s1 s2
termination_by s1.length
decreasing_by
  simp only [List.length_drop, WORD_SIZE] at *
  omega

/-! ### Helper lemmas -/

theorem applyOp_le_eleven (op : StateOp) (s : Nat) (h : s ≤ 11) : applyOp op s ≤ 11 := by
  cases op <;>
    simp only [applyOp, update_literal, update_match, update_long_rep, update_short_rep,
      LIT_STATES] <;>
    (repeat' split) <;> omega

theorem applyOps_le_eleven (ops : List StateOp) (s : Nat) (h : s ≤ 11) :
    applyOps ops s ≤ 11 := by
  induction ops generalizing s with
  | nil => exact h
  | cons op rest ih => exact ih (applyOp op s) (applyOp_le_eleven op s h)

/-! ### C2 -/

/-- C2: the coder state machine satisfies the spec's transition table:
`update_literal` maps `s ≤ 3` to 0, `4 ≤ s ≤ 9` to `s - 3`, `s ≥ 10` to
`s - 6`; `update_match` maps `s < 7` to 7 and `s ≥ 7` to 10;
`update_long_rep` maps `s < 7` to 8 and `s ≥ 7` to 11;
`update_short_rep` maps `s < 7` to 9 and `s ≥ 7` to 11; `is_literal`
holds iff `s < 7`; and from state 0 every finite sequence of update
operations keeps the state in `[0, 11]`. -/
theorem C2_state_machine :
    (∀ s, s ≤ 3 → update_literal s = 0) ∧
    (∀ s, 4 ≤ s → s ≤ 9 → update_literal s = s - 3) ∧
    (∀ s, 10 ≤ s → update_literal s = s - 6) ∧
    (∀ s, s < 7 → update_match s = 7) ∧
    (∀ s, 7 ≤ s → update_match s = 10) ∧
    (∀ s, s < 7 → update_long_rep s = 8) ∧
    (∀ s, 7 ≤ s → update_long_rep s = 11) ∧
    (∀ s, s < 7 → update_short_rep s = 9) ∧
    (∀ s, 7 ≤ s → update_short_rep s = 11) ∧
    (∀ s, is_literal s = true ↔ s < 7) ∧
    (∀ ops : List StateOp, applyOps ops 0 ≤ 11) := by
  refine ⟨?_, ?_, ?_, ?_, ?_, ?_, ?_, ?_, ?_, ?_, ?_⟩
  · intro s h
    simp only [update_literal]
    (repeat' split) <;> omega
  · intro s h1 h2
    simp only [update_literal]
    (repeat' split) <;> omega
  · intro s h
    simp only [update_literal]
    (repeat' split) <;> omega
  · intro s h
    simp only [update_match, LIT_STATES]
    split <;> omega
  · intro s h
    simp only [update_match, LIT_STATES]
    split <;> omega
  · intro s h
    simp only [update_long_rep, LIT_STATES]
    split <;> omega
  · intro s h
    simp only [update_long_rep, LIT_STATES]
    split <;> omega
  · intro s h
    simp only [update_short_rep, LIT_STATES]
    split <;> omega
  · intro s h
    simp only [update_short_rep, LIT_STATES]
    split <;> omega
  · intro s
    simp [is_literal, LIT_STATES]
  · intro ops
    exact applyOps_le_eleven ops 0 (by omega)

/-- Witness for C2 at concrete inputs. -/
theorem C2_state_machine_witness :
    update_literal 2 = 0 ∧ update_match 8 = 10 ∧
    applyOps [StateOp.matchOp, StateOp.literal, StateOp.shortRep] 0 ≤ 11 :=
  ⟨C2_state_machine.1 2 (by decide),
   C2_state_machine.2.2.2.2.1 8 (by decide),
   C2_state_machine.2.2.2.2.2.2.2.2.2.2 [StateOp.matchOp, StateOp.literal, StateOp.shortRep]⟩

/-! ### C4 -/

theorem uncompressed_chunk_sizes_sum (n : Nat) : (uncompressed_chunk_sizes n).sum = n := by
  induction n using Nat.strong_induction_on with
  | _ n ih =>
    rw [uncompressed_chunk_sizes]
    split
    · simp [*]
    · rename_i h
      have hmax : COMPRESSED_SIZE_MAX = 65536 := by decide
      have hpos : 0 < min n COMPRESSED_SIZE_MAX := by
        rw [hmax]; omega
      simp only [List.sum_cons]
      rw [ih (n - min n COMPRESSED_SIZE_MAX) (by omega)]
      omega

theorem uncompressed_chunk_sizes_bounds (n : Nat) :
    ∀ sz ∈ uncompressed_chunk_sizes n, 0 < sz ∧ sz ≤ 65536 := by
  induction n using Nat.strong_induction_on with
  | _ n ih =>
    rw [uncompressed_chunk_sizes]
    split
    · simp
    · rename_i h
      have hmax : COMPRESSED_SIZE_MAX = 65536 := by decide
      have hpos : 0 < min n COMPRESSED_SIZE_MAX := by
        rw [hmax]; omega
      intro sz hsz
      rcases List.mem_cons.mp hsz with h1 | h1
      · subst h1
        rw [hmax] at hpos ⊢
        omega
      · exact ih (n - min n COMPRESSED_SIZE_MAX) (by omega) sz h1

/-- C4 counterexample: at `compressed_size = 5`, `uncompressed_size = 5`
the claim's condition `compressed < uncompressed + 2` holds, yet
`write_chunk` emits uncompressed chunks, not an LZMA chunk. -/
theorem C4_counterexample :
    (5 : Nat) < 5 + 2 ∧ write_chunk_is_lzma 5 5 = false := by decide

/-- C4 (amended): the pending chunk is written as an LZMA chunk exactly
when `compressed_size + 2 < uncompressed_size`; otherwise the writer
rewinds and emits one or more uncompressed chunks, each of size at most
64 KiB and together covering the pending bytes exactly. -/
theorem C4_chunk_emission :
    (∀ c u, write_chunk_is_lzma c u = true ↔ c + 2 < u) ∧
    (∀ n, (∀ sz ∈ uncompressed_chunk_sizes n, 0 < sz ∧ sz ≤ 64 * 1024) ∧
      (uncompressed_chunk_sizes n).sum = n) := by
  constructor
  · intro c u
    simp [write_chunk_is_lzma]
  · intro n
    exact ⟨fun sz hsz => uncompressed_chunk_sizes_bounds n sz hsz,
      uncompressed_chunk_sizes_sum n⟩

/-- Witness for C4 at concrete inputs. -/
theorem C4_chunk_emission_witness :
    write_chunk_is_lzma 3 6 = true ∧ (uncompressed_chunk_sizes 70000).sum = 70000 :=
  ⟨(C4_chunk_emission.1 3 6).mpr (by decide), (C4_chunk_emission.2 70000).2⟩

/-! ### C1 and C5 -/

theorem bound_le_range (range prob : Nat) (hp : prob ≤ 2048) :
    (range >>> 11) * prob ≤ range := by
  have h1 : (range >>> 11) * prob ≤ (range >>> 11) * 2048 :=
    Nat.mul_le_mul_left _ hp
  have h2 : (range >>> 11) * 2048 ≤ range := by
    rw [Nat.shiftRight_eq_div_pow]
    have : (2 : Nat) ^ 11 = 2048 := by norm_num
    rw [this]
    exact Nat.div_mul_le_self range 2048
  omega

theorem and_u32_max (x : Nat) (hx : x < U32) : x &&& (U32 - 1) = x := by
  have h : U32 - 1 = 2 ^ 32 - 1 := rfl
  rw [h, Nat.and_pow_two_sub_one_eq_mod]
  exact Nat.mod_eq_of_lt hx

theorem rc_offset_lt : RC_BIT_MODEL_OFFSET < U32 := by decide

theorem decode_bit_eq_ref (range code prob : Nat) (hp : prob ≤ 2048)
    (hr : range < U32) :
    decode_bit range code prob = decode_bit_ref range code prob := by
  have hb := bound_le_range range prob hp
  simp only [decode_bit, decode_bit_ref, BIT_MODEL_TOTAL_BITS, MOVE_BITS]
  by_cases h : code < (range >>> 11) * prob
  · have hle : ¬ ((range >>> 11) * prob ≤ code) := by omega
    simp only [hle, if_false, if_pos h, Nat.sub_zero, Nat.mod_self]
    have e1 : (range >>> 11) * prob &&& U32 - 1 = (range >>> 11) * prob :=
      and_u32_max _ (by omega)
    have e2 : RC_BIT_MODEL_OFFSET &&& U32 - 1 = RC_BIT_MODEL_OFFSET :=
      and_u32_max _ rc_offset_lt
    rw [e1, e2, Nat.and_zero, Nat.and_zero, Nat.or_zero, Nat.zero_and]
    refine congrArg (Prod.mk 0) (congrArg (Prod.mk _) (congrArg (Prod.mk code) ?_))
    have hrc : RC_BIT_MODEL_OFFSET = 4294965279 := by decide
    have hu32 : U32 = 4294967296 := by decide
    have hu16 : U16 = 65536 := by decide
    rw [hrc, hu32, hu16, Nat.shiftRight_eq_div_pow, Nat.shiftRight_eq_div_pow]
    have h5 : (2 : Nat) ^ 5 = 32 := by norm_num
    rw [h5]
    omega
  · have hle : (range >>> 11) * prob ≤ code := by omega
    simp only [hle, if_true, if_neg h]
    have hm : (U32 - 1) % U32 = U32 - 1 := Nat.mod_eq_of_lt (by decide)
    rw [hm, Nat.sub_self]
    have e1 : (range - (range >>> 11) * prob) &&& U32 - 1 = range - (range >>> 11) * prob :=
      and_u32_max _ (by omega)
    have e2 : (range >>> 11) * prob &&& U32 - 1 = (range >>> 11) * prob :=
      and_u32_max _ (by omega)
    have e3 : U32 - 1 &&& 1 = 1 := by decide
    rw [e1, e2, e3, Nat.and_zero, Nat.and_zero, Nat.zero_or]
    refine congrArg (Prod.mk 1) (congrArg (Prod.mk _) (congrArg (Prod.mk _) ?_))
    have hu32 : U32 = 4294967296 := by decide
    have hu16 : U16 = 65536 := by decide
    rw [hu32, hu16, Nat.shiftRight_eq_div_pow, Nat.shiftRight_eq_div_pow]
    have h5 : (2 : Nat) ^ 5 = 32 := by norm_num
    rw [h5]
    omega

/-- C1: for every probability in `[0, 2048]` and every `u32` state
`(range, code)` after `normalize`, the branchless mask-based
implementation of `decode_bit` computes exactly the reference behaviour:
bit 0 with `range = bound` and `prob += (2048 - prob) >> 5` when
`code < bound`, bit 1 with `range -= bound`, `code -= bound` and
`prob -= prob >> 5` otherwise. -/
theorem C1_decode_bit_branchless_refines_ref (range code prob : Nat)
    (hp : prob ≤ 2048) (hr : range < U32) (hc : code < U32) :
    decode_bit range code prob = decode_bit_ref range code prob :=
  decode_bit_eq_ref range code prob hp hr

/-- Witness for C1 at a concrete input. -/
theorem C1_decode_bit_branchless_refines_ref_witness :
    (1024 : Nat) ≤ 2048 ∧ (0xFFFFFFFF : Nat) < U32 ∧ (0x7FFFFFFF : Nat) < U32 ∧
    decode_bit 0xFFFFFFFF 0x7FFFFFFF 1024 = decode_bit_ref 0xFFFFFFFF 0x7FFFFFFF 1024 :=
  ⟨by norm_num, by norm_num [U32], by norm_num [U32],
   C1_decode_bit_branchless_refines_ref 0xFFFFFFFF 0x7FFFFFFF 1024 (by norm_num)
     (by norm_num [U32]) (by norm_num [U32])⟩

/-- C5: every probability table entry starts at 1024, and for
`0 < prob < 2048` the probability stored back by `decode_bit` (for either
decoded bit) again lies strictly between 0 and 2048. -/
theorem C5_probability_stays_interior :
    (∀ n p, p ∈ init_probs n → p = 1024) ∧
    (∀ range code prob, range < U32 → code < U32 → 0 < prob → prob < 2048 →
      0 < (decode_bit range code prob).2.2.2 ∧
        (decode_bit range code prob).2.2.2 < 2048) := by
  constructor
  · intro n p hp
    have := (List.mem_replicate.mp hp).2
    simp [this, PROB_INIT, BIT_MODEL_TOTAL, BIT_MODEL_TOTAL_BITS]
  · intro range code prob hr hc hp0 hp1
    rw [decode_bit_eq_ref range code prob (by omega) hr]
    simp only [decode_bit_ref]
    split
    · simp only []
      rw [Nat.shiftRight_eq_div_pow]
      have h5 : (2 : Nat) ^ 5 = 32 := by norm_num
      rw [h5]
      omega
    · simp only []
      rw [Nat.shiftRight_eq_div_pow]
      have h5 : (2 : Nat) ^ 5 = 32 := by norm_num
      rw [h5]
      omega

/-- Witness for C5 at a concrete input. -/
theorem C5_probability_stays_interior_witness :
    0 < (decode_bit 0xFFFFFFFF 0 1024).2.2.2 ∧ (decode_bit 0xFFFFFFFF 0 1024).2.2.2 < 2048 :=
  (C5_probability_stays_interior.2 0xFFFFFFFF 0 1024 (by norm_num [U32])
    (by norm_num [U32]) (by norm_num) (by norm_num))

/-! ### C6 -/

/-- C6: constructing a streaming range decoder fails unless the first
input byte is `0x00`; on success `code` is the next four bytes big-endian
and `range = 0xFFFFFFFF`; preparing the per-chunk buffered decoder fails
when the declared chunk length is below 5; and `is_finished` holds
exactly when the whole buffer is consumed and `code = 0`. -/
theorem C6_range_decoder_init :
    (∀ b rest, b ≠ 0 →
      new_stream (b :: rest) = Except.error "range decoder first byte is not zero") ∧
    (∀ input out, new_stream input = Except.ok out → ∃ rest, input = 0 :: rest) ∧
    (∀ b0 b1 b2 b3 rest, new_stream (0 :: b0 :: b1 :: b2 :: b3 :: rest) =
      Except.ok (((b0 * 256 + b1) * 256 + b2) * 256 + b3, 0xFFFFFFFF, rest)) ∧
    (∀ s reader len, len < 5 →
      prepare s reader len = Except.error "buffer len must >= 5") ∧
    (∀ s, is_finished s = true ↔ (s.inner.pos = s.inner.buf.length ∧ s.code = 0)) := by
  refine ⟨?_, ?_, ?_, ?_, ?_⟩
  · intro b rest hb
    simp [new_stream, hb]
  · intro input out h
    match input with
    | [] => simp [new_stream] at h
    | b :: rest =>
      by_cases hb : b = 0
      · exact ⟨rest, by rw [hb]⟩
      · simp [new_stream, hb] at h
  · intro b0 b1 b2 b3 rest
    simp [new_stream, read_u32_be]
  · intro s reader len hlen
    simp [prepare, hlen]
  · intro s
    simp [is_finished]

/-- Witness for C6 at concrete inputs. -/
theorem C6_range_decoder_init_witness :
    new_stream [7, 1, 2, 3, 4] = Except.error "range decoder first byte is not zero" ∧
    new_stream [0, 1, 2, 3, 4] =
      Except.ok (((1 * 256 + 2) * 256 + 3) * 256 + 4, 0xFFFFFFFF, []) ∧
    prepare (new_buffer 10) [0, 1, 2, 3] 4 = Except.error "buffer len must >= 5" ∧
    (is_finished { inner := { buf := [5], pos := 1 }, code := 0, range := 77 } = true) :=
  ⟨C6_range_decoder_init.1 7 [1, 2, 3, 4] (by decide),
   C6_range_decoder_init.2.2.1 1 2 3 4 [],
   C6_range_decoder_init.2.2.2.1 (new_buffer 10) [0, 1, 2, 3] 4 (by decide),
   (C6_range_decoder_init.2.2.2.2 _).mpr (by constructor <;> rfl)⟩

/-! ### C8 -/

set_option maxRecDepth 100000 in
/-- C8: decoding an lzip dictionary-size byte interprets the low 5 bits
as `base_log2` and the high 3 bits as `frac`, and returns
`(1 << base_log2) - frac * (1 << (base_log2 - 4))` whenever
`base_log2 ∈ [12, 29]` and the resulting size lies in
`[4 KiB, 512 MiB]`; any byte violating these conditions yields an
error. -/
theorem C8_decode_dict_size (b : Nat) (hb : b < 256) :
    ((12 ≤ b &&& 0x1F ∧ b &&& 0x1F ≤ 29 ∧
      MIN_DICT_SIZE ≤ dict_size_formula b ∧ dict_size_formula b ≤ MAX_DICT_SIZE) →
      decode_dict_size b = Except.ok (dict_size_formula b)) ∧
    (¬ (12 ≤ b &&& 0x1F ∧ b &&& 0x1F ≤ 29 ∧
      MIN_DICT_SIZE ≤ dict_size_formula b ∧ dict_size_formula b ≤ MAX_DICT_SIZE) →
      (decode_dict_size b).isOk = false) := by
  revert hb
  revert b
  decide

/-- Witness for C8 at the documented example byte `0xD3`
(`2^19 - 6 * 2^15` = 320 KiB). -/
theorem C8_decode_dict_size_witness :
    decode_dict_size 0xD3 = Except.ok (dict_size_formula 0xD3) :=
  (C8_decode_dict_size 0xD3 (by decide)).1 (by decide)

/-! ### Bitwise decomposition helpers -/

theorem testBit_add_two_pow_mul (k a x i : Nat) (ha : a < 2 ^ k) :
    (a + 2 ^ k * x).testBit i = if i < k then a.testBit i else x.testBit (i - k) := by
  split
  · rename_i hik
    rw [Nat.testBit_to_div_mod, Nat.testBit_to_div_mod]
    have hk : 2 ^ k = 2 ^ (k - i - 1) * 2 * 2 ^ i := by
      rw [mul_assoc, ← pow_succ']
      rw [← pow_add]
      congr 1
      omega
    have hd : (a + 2 ^ k * x) / 2 ^ i = a / 2 ^ i + 2 ^ (k - i - 1) * 2 * x := by
      have hrw : a + 2 ^ k * x = a + (2 ^ (k - i - 1) * 2 * x) * 2 ^ i := by
        rw [hk]
        ring
      rw [hrw, Nat.add_mul_div_right a _ (Nat.pos_pow_of_pos i (by norm_num))]
    rw [hd]
    have hm : (a / 2 ^ i + 2 ^ (k - i - 1) * 2 * x) % 2 = a / 2 ^ i % 2 := by
      have : 2 ^ (k - i - 1) * 2 * x = 2 * (2 ^ (k - i - 1) * x) := by ring
      rw [this, mul_comm 2 (2 ^ (k - i - 1) * x), ← Nat.add_mul_mod_self_left (a / 2 ^ i) 2
        (2 ^ (k - i - 1) * x)]
      ring_nf
    rw [hm]
  · rename_i hik
    rw [Nat.testBit_to_div_mod, Nat.testBit_to_div_mod]
    have hi : 2 ^ i = 2 ^ k * 2 ^ (i - k) := by
      rw [← pow_add]
      congr 1
      omega
    have hd : (a + 2 ^ k * x) / 2 ^ i = x / 2 ^ (i - k) := by
      rw [hi, ← Nat.div_div_eq_div_mul]
      congr 1
      rw [mul_comm (2 ^ k) x]
      rw [Nat.add_mul_div_right a x (Nat.pos_pow_of_pos k (by norm_num))]
      rw [Nat.div_eq_of_lt ha]
      omega
    rw [hd]

theorem lor_add_two_pow_mul (k a b x y : Nat) (ha : a < 2 ^ k) (hb : b < 2 ^ k) :
    (a + 2 ^ k * x) ||| (b + 2 ^ k * y) = (a ||| b) + 2 ^ k * (x ||| y) := by
  apply Nat.eq_of_testBit_eq
  intro i
  rw [Nat.testBit_lor, testBit_add_two_pow_mul k a x i ha,
    testBit_add_two_pow_mul k b y i hb,
    testBit_add_two_pow_mul k (a ||| b) (x ||| y) i (Nat.or_lt_two_pow ha hb),
    Nat.testBit_lor, Nat.testBit_lor]
  split <;> rfl

theorem xor_add_two_pow_mul (k a b x y : Nat) (ha : a < 2 ^ k) (hb : b < 2 ^ k) :
    (a + 2 ^ k * x) ^^^ (b + 2 ^ k * y) = (a ^^^ b) + 2 ^ k * (x ^^^ y) := by
  apply Nat.eq_of_testBit_eq
  intro i
  rw [Nat.testBit_xor, testBit_add_two_pow_mul k a x i ha,
    testBit_add_two_pow_mul k b y i hb,
    testBit_add_two_pow_mul k (a ^^^ b) (x ^^^ y) i (Nat.xor_lt_two_pow ha hb),
    Nat.testBit_xor, Nat.testBit_xor]
  split <;> rfl

theorem lor_shiftLeft_eq_add (shift r d : Nat) (hr : r < 2 ^ shift) :
    r ||| (d <<< shift) = r + d * 2 ^ shift := by
  have h1 : r ||| (d <<< shift) = (r + 2 ^ shift * 0) ||| (0 + 2 ^ shift * d) := by
    rw [Nat.shiftLeft_eq]
    congr 1 <;> ring
  rw [h1, lor_add_two_pow_mul shift r 0 0 d hr (Nat.pos_pow_of_pos shift (by norm_num)),
    Nat.or_zero, Nat.zero_or]
  ring

theorem mod256_or_128 (v : Nat) : (v % 256) ||| 0x80 = v % 128 + 128 := by
  have h : v % 256 = v % 128 + 2 ^ 7 * (v / 128 % 2) := by
    have h2 := Nat.mod_mul (a := 128) (b := 2) (x := v)
    norm_num at h2
    omega
  have h3 : v / 128 % 2 ||| 1 = 1 := by
    rcases Nat.mod_two_eq_zero_or_one (v / 128) with h3 | h3 <;> rw [h3] <;> decide
  have key := lor_add_two_pow_mul 7 (v % 128) 0 (v / 128 % 2) 1
    (Nat.mod_lt _ (by norm_num)) (by norm_num)
  rw [Nat.or_zero, h3] at key
  norm_num at key
  rw [h]
  norm_num
  exact key

/-! ### C3 -/

theorem continuation_byte_and_127 (v : Nat) : (v % 128 + 128) &&& 0x7F = v % 128 := by
  have h : (0x7F : Nat) = 2 ^ 7 - 1 := by norm_num
  rw [h, Nat.and_pow_two_sub_one_eq_mod]
  omega

theorem continuation_byte_and_128 (v : Nat) : (v % 128 + 128) &&& 0x80 = 128 := by
  have ht : (v % 128 + 128).testBit 7 = true := by
    rw [Nat.testBit_to_div_mod]
    have hlt : v % 128 < 128 := Nat.mod_lt _ (by norm_num)
    have h1 : (v % 128 + 128) / 2 ^ 7 = 1 := by
      have h7 : (2 : Nat) ^ 7 = 128 := by norm_num
      rw [h7]
      omega
    rw [h1]
    rfl
  have h : (0x80 : Nat) = 2 ^ 7 := by norm_num
  calc (v % 128 + 128) &&& 0x80 = (v % 128 + 128) &&& 2 ^ 7 := by rw [h]
  _ = ((v % 128 + 128).testBit 7).toNat * 2 ^ 7 := Nat.and_two_pow _ 7
  _ = 128 := by rw [ht]; norm_num

theorem final_byte_and_127 (v : Nat) (hv : v < 128) : v &&& 0x7F = v := by
  have h : (0x7F : Nat) = 2 ^ 7 - 1 := by norm_num
  rw [h, Nat.and_pow_two_sub_one_eq_mod]
  omega

theorem final_byte_and_128 (v : Nat) (hv : v < 128) : v &&& 0x80 = 0 := by
  have h : (0x80 : Nat) = 2 ^ 7 := by norm_num
  rw [h, Nat.and_two_pow, Nat.testBit_eq_false_of_lt (by omega)]
  norm_num

theorem count_pos (v : Nat) : 0 < count_multibyte_integer_size_for_value v := by
  by_cases h : v = 0
  · simp [count_multibyte_integer_size_for_value, h]
  · rw [count_multibyte_integer_size_for_value, if_neg h, countDigits7, dif_neg h]
    omega

theorem countDigits7_shift (v : Nat) (hv : v ≠ 0) :
    countDigits7 v = countDigits7 (v >>> 7) + 1 := by
  rw [countDigits7, dif_neg hv]

theorem count_shift (v : Nat) (hv : 128 ≤ v) :
    count_multibyte_integer_size_for_value v =
      count_multibyte_integer_size_for_value (v >>> 7) + 1 := by
  have hv0 : v ≠ 0 := by omega
  have hs : v >>> 7 = v / 128 := by
    rw [Nat.shiftRight_eq_div_pow]
  have hs0 : v >>> 7 ≠ 0 := by
    rw [hs]
    have : 1 ≤ v / 128 := (Nat.one_le_div_iff (by norm_num)).mpr hv
    omega
  rw [count_multibyte_integer_size_for_value, count_multibyte_integer_size_for_value,
    if_neg hv0, if_neg hs0]
  exact countDigits7_shift v hv0

theorem parse_encode_go (v : Nat) :
    ∀ result shift cap, shift % 7 = 0 → shift ≤ 56 → result < 2 ^ shift →
      v < 2 ^ (63 - shift) → count_multibyte_integer_size_for_value v ≤ cap →
      parseMBIGo (encodeMBIGo v cap) result shift = some (result + v * 2 ^ shift) := by
  induction v using Nat.strong_induction_on with
  | _ v ih =>
    intro result shift cap h7 h56 hres hv hcap
    have hcap1 : 1 ≤ cap := le_trans (count_pos v) hcap
    obtain ⟨c, rfl⟩ : ∃ c, cap = c + 1 := ⟨cap - 1, by omega⟩
    by_cases hbig : 0x80 ≤ v
    · have hs : v >>> 7 = v / 128 := by
        rw [Nat.shiftRight_eq_div_pow]
      have hshift56 : shift + 7 ≤ 56 := by
        have h1 : (2 : Nat) ^ 7 ≤ v := by omega
        have h2 : (2 : Nat) ^ 7 < 2 ^ (63 - shift) := lt_of_le_of_lt h1 hv
        have h3 : 7 < 63 - shift := (Nat.pow_lt_pow_iff_right (by norm_num)).mp h2
        omega
      rw [encodeMBIGo, if_pos hbig]
      rw [parseMBIGo]
      rw [if_neg (by omega)]
      rw [mod256_or_128, continuation_byte_and_127, continuation_byte_and_128]
      rw [if_neg (by norm_num)]
      have hlor : result ||| ((v % 128) <<< shift) = result + (v % 128) * 2 ^ shift :=
        lor_shiftLeft_eq_add shift result (v % 128) hres
      rw [hlor]
      have hrec := ih (v >>> 7) (by rw [hs]; exact Nat.div_lt_self (by omega) (by norm_num))
        (result + v % 128 * 2 ^ shift) (shift + 7) c (by omega) hshift56
        (by
          have h1 : v % 128 < 128 := Nat.mod_lt _ (by norm_num)
          have h2 : result + v % 128 * 2 ^ shift < 2 ^ shift + 127 * 2 ^ shift := by
            have : v % 128 * 2 ^ shift ≤ 127 * 2 ^ shift :=
              Nat.mul_le_mul_right _ (by omega)
            omega
          have h3 : (2 : Nat) ^ shift + 127 * 2 ^ shift = 2 ^ (shift + 7) := by
            rw [pow_add]
            ring
          omega)
        (by
          rw [hs]
          have h1 : (2 : Nat) ^ 7 ≤ v := by omega
          have h2 : (2 : Nat) ^ 7 < 2 ^ (63 - shift) := lt_of_le_of_lt h1 hv
          have h3 : 7 < 63 - shift := (Nat.pow_lt_pow_iff_right (by norm_num)).mp h2
          have he : 63 - (shift + 7) = 63 - shift - 7 := by omega
          rw [he, Nat.div_lt_iff_lt_mul (by norm_num : (0:Nat) < 128)]
          have hpow : (2 : Nat) ^ (63 - shift - 7) * 128 = 2 ^ (63 - shift) := by
            have h128 : (128 : Nat) = 2 ^ 7 := by norm_num
            rw [h128, ← pow_add]
            congr 1
            omega
          rw [hpow]
          exact hv)
        (by
          have := count_shift v hbig
          omega)
      rw [hrec]
      congr 1
      have hv128 : v = 128 * (v / 128) + v % 128 := (Nat.div_add_mod v 128).symm
      rw [hs]
      have hpow : (2 : Nat) ^ (shift + 7) = 2 ^ shift * 128 := by
        rw [pow_add]
        norm_num
      rw [hpow]
      nlinarith [hv128]
    · rw [encodeMBIGo, if_neg hbig]
      rw [parseMBIGo]
      rw [if_neg (by omega)]
      have hsmall : v % 256 = v := Nat.mod_eq_of_lt (by omega)
      rw [hsmall, final_byte_and_127 v (by omega), final_byte_and_128 v (by omega)]
      rw [if_pos rfl]
      rw [lor_shiftLeft_eq_add shift result v hres]

theorem encode_length (v : Nat) :
    ∀ cap, count_multibyte_integer_size_for_value v ≤ cap →
      (encodeMBIGo v cap).length = count_multibyte_integer_size_for_value v := by
  induction v using Nat.strong_induction_on with
  | _ v ih =>
    intro cap hcap
    have hcap1 : 1 ≤ cap := le_trans (count_pos v) hcap
    obtain ⟨c, rfl⟩ : ∃ c, cap = c + 1 := ⟨cap - 1, by omega⟩
    by_cases hbig : 0x80 ≤ v
    · have hs : v >>> 7 = v / 128 := by
        rw [Nat.shiftRight_eq_div_pow]
      rw [encodeMBIGo, if_pos hbig]
      rw [List.length_cons]
      rw [ih (v >>> 7) (by rw [hs]; exact Nat.div_lt_self (by omega) (by norm_num)) c
        (by have := count_shift v hbig; omega)]
      have := count_shift v hbig
      omega
    · rw [encodeMBIGo, if_neg hbig]
      have hv0 : count_multibyte_integer_size_for_value v = 1 := by
        by_cases h : v = 0
        · simp [count_multibyte_integer_size_for_value, h]
        · rw [count_multibyte_integer_size_for_value, if_neg h, countDigits7, dif_neg h]
          have hz : v >>> 7 = 0 := by
            rw [Nat.shiftRight_eq_div_pow]
            norm_num
            omega
          rw [hz, countDigits7]
          norm_num
      rw [hv0]
      rfl

theorem countDigits7_eq_log (v : Nat) (hv : v ≠ 0) :
    countDigits7 v = Nat.log2 v / 7 + 1 := by
  induction v using Nat.strong_induction_on with
  | _ v ih =>
    by_cases hbig : 128 ≤ v
    · have hs : v >>> 7 = v / 128 := by
        rw [Nat.shiftRight_eq_div_pow]
      have hdiv0 : v / 128 ≠ 0 := by
        have : 1 ≤ v / 128 := (Nat.one_le_div_iff (by norm_num)).mpr hbig
        omega
      rw [countDigits7_shift v hv, hs,
        ih (v / 128) (Nat.div_lt_self (by omega) (by norm_num)) hdiv0]
      have hlog : Nat.log2 (v / 128) = Nat.log2 v - 7 := by
        rw [Nat.log2_eq_log_two, Nat.log2_eq_log_two]
        have h128 : v / 128 = v / 2 / 2 / 2 / 2 / 2 / 2 / 2 := by
          rw [Nat.div_div_eq_div_mul, Nat.div_div_eq_div_mul, Nat.div_div_eq_div_mul,
            Nat.div_div_eq_div_mul, Nat.div_div_eq_div_mul, Nat.div_div_eq_div_mul]
        rw [h128, Nat.log_div_base, Nat.log_div_base, Nat.log_div_base, Nat.log_div_base,
          Nat.log_div_base, Nat.log_div_base, Nat.log_div_base]
        omega
      have hlog7 : 7 ≤ Nat.log2 v := (Nat.le_log2 hv).mpr (by norm_num; omega)
      rw [hlog]
      omega
    · rw [countDigits7, dif_neg hv]
      have hz : v >>> 7 = 0 := by
        rw [Nat.shiftRight_eq_div_pow]
        norm_num
        omega
      rw [hz, countDigits7]
      have hlt : Nat.log2 v < 7 := (Nat.log2_lt hv).mpr (by norm_num; omega)
      norm_num
      omega

/-- C3: the XZ variable-length integer codec round-trips and has exact
size: for every `v < 2^63` and a buffer of at least the encoded size,
encoding succeeds, decoding the encoded bytes returns `v`, the encoding
occupies exactly `count_multibyte_integer_size_for_value v` bytes, which
equals `⌈bits(v)/7⌉` (1 byte for `v = 0`); and encoding fails for every
`v ≥ 2^63`. -/
theorem C3_vli_roundtrip :
    (∀ v cap, v < 2 ^ 63 → count_multibyte_integer_size_for_value v ≤ cap →
      ∃ bs, encode_multibyte_integer v cap = some bs ∧
        parse_multibyte_integer bs = some v ∧
        bs.length = count_multibyte_integer_size_for_value v) ∧
    count_multibyte_integer_size_for_value 0 = 1 ∧
    (∀ v, v ≠ 0 → count_multibyte_integer_size_for_value v = (Nat.log2 v + 1 + 6) / 7) ∧
    (∀ v cap, 2 ^ 63 ≤ v → encode_multibyte_integer v cap = none) := by
  refine ⟨?_, by rfl, ?_, ?_⟩
  · intro v cap hv hcap
    refine ⟨encodeMBIGo v cap, ?_, ?_, encode_length v cap hcap⟩
    · rw [encode_multibyte_integer, if_neg (by norm_num; omega)]
    · rw [parse_multibyte_integer]
      have h := parse_encode_go v 0 0 cap (by norm_num) (by norm_num) (by norm_num)
        (by norm_num; omega) hcap
      rw [h]
      norm_num
  · intro v hv
    rw [count_multibyte_integer_size_for_value, if_neg hv, countDigits7_eq_log v hv]
    omega
  · intro v cap hv
    rw [encode_multibyte_integer, if_pos (by norm_num; omega)]

/-- Witness for C3 at a concrete input. -/
theorem C3_vli_roundtrip_witness :
    (300 : Nat) < 2 ^ 63 ∧ count_multibyte_integer_size_for_value 300 ≤ 9 ∧
    (∃ bs, encode_multibyte_integer 300 9 = some bs ∧
      parse_multibyte_integer bs = some 300 ∧
      bs.length = count_multibyte_integer_size_for_value 300) ∧
    encode_multibyte_integer (2 ^ 63) 0 = none := by
  have h300 : (300 : Nat) >>> 7 = 2 := by rw [Nat.shiftRight_eq_div_pow]
  have h2 : (2 : Nat) >>> 7 = 0 := by rw [Nat.shiftRight_eq_div_pow]
  have hc : count_multibyte_integer_size_for_value 300 = 2 := by
    rw [count_multibyte_integer_size_for_value, if_neg (by norm_num),
      countDigits7_shift 300 (by norm_num), h300,
      countDigits7_shift 2 (by norm_num), h2, countDigits7]
    norm_num
  refine ⟨by norm_num, by rw [hc]; norm_num, ?_, ?_⟩
  · exact C3_vli_roundtrip.1 300 9 (by norm_num) (by rw [hc]; norm_num)
  · exact C3_vli_roundtrip.2.2.2 (2 ^ 63) 0 (le_refl _)

/-! ### C7 -/

theorem drainPool_spec :
    ∀ (n : Nat) (buffer : List Nat), buffer.length ≤ n → buffer.Nodup → ∀ next,
      next ≤ (drainPool next buffer).1 ∧
      (drainPool next buffer).2.2 =
        List.range' next ((drainPool next buffer).1 - next) ∧
      (∀ x, x ∈ (drainPool next buffer).2.1 ↔
        (x ∈ buffer ∧ ¬ (next ≤ x ∧ x < (drainPool next buffer).1))) ∧
      (drainPool next buffer).1 ∉ (drainPool next buffer).2.1 ∧
      (drainPool next buffer).2.1.Nodup ∧
      (∀ i, next ≤ i → i < (drainPool next buffer).1 → i ∈ buffer) := by
  intro n
  induction n with
  | zero =>
    intro buffer hlen hnd next
    have hb : buffer = [] := List.length_eq_zero.mp (by omega)
    subst hb
    rw [drainPool]
    simp
  | succ m ih =>
    intro buffer hlen hnd next
    rw [drainPool]
    by_cases h : next ∈ buffer
    · simp only [dif_pos h]
      have hlen2 : (buffer.erase next).length ≤ m := by
        rw [List.length_erase_of_mem h]
        have hpos : 0 < buffer.length := List.length_pos.mpr (List.ne_nil_of_mem h)
        omega
      have hnd2 : (buffer.erase next).Nodup := hnd.erase next
      obtain ⟨ih1, ih2, ih3, ih4, ih5, ih6⟩ := ih (buffer.erase next) hlen2 hnd2 (next + 1)
      refine ⟨by omega, ?_, ?_, ih4, ih5, ?_⟩
      · have hsub : (drainPool (next + 1) (buffer.erase next)).1 - next =
            ((drainPool (next + 1) (buffer.erase next)).1 - (next + 1)) + 1 := by
          omega
        rw [hsub, List.range'_succ, ← ih2]
      · intro x
        rw [ih3 x, List.Nodup.mem_erase_iff hnd]
        constructor
        · rintro ⟨⟨hx1, hx2⟩, hx3⟩
          refine ⟨hx2, ?_⟩
          omega
        · rintro ⟨hx1, hx2⟩
          have hxne : x ≠ next := by
            intro he
            subst he
            exact hx2 ⟨le_refl x, by omega⟩
          exact ⟨⟨hxne, hx1⟩, by omega⟩
      · intro i hi1 hi2
        by_cases he : i = next
        · subst he; exact h
        · exact List.mem_of_mem_erase (ih6 i (by omega) hi2)
    · simp only [dif_neg h]
      refine ⟨le_refl _, by simp, ?_, h, hnd, ?_⟩
      · intro x
        constructor
        · intro hx
          exact ⟨hx, by omega⟩
        · rintro ⟨hx, _⟩
          exact hx
      · intro i hi1 hi2
        omega

theorem runPool_spec :
    ∀ (l : List Nat) (s : PoolState),
      s.outOfOrder.Nodup →
      (∀ i ∈ s.outOfOrder, s.nextIndexToReturn < i) →
      l.Nodup →
      (∀ a ∈ l, a ∉ s.outOfOrder ∧ s.nextIndexToReturn ≤ a) →
      s.nextIndexToReturn ≤ (runPool l s).1.nextIndexToReturn ∧
      (runPool l s).2 = List.range' s.nextIndexToReturn
        ((runPool l s).1.nextIndexToReturn - s.nextIndexToReturn) ∧
      (runPool l s).1.outOfOrder.Nodup ∧
      (∀ i ∈ (runPool l s).1.outOfOrder, (runPool l s).1.nextIndexToReturn < i) := by
  intro l
  induction l with
  | nil =>
    intro s h1 h2 _ _
    exact ⟨le_refl _, by simp [runPool], h1, h2⟩
  | cons a rest ih =>
    intro s h1 h2 h3 h4
    have hanr : a ∉ rest := (List.nodup_cons.mp h3).1
    have hrest_nd : rest.Nodup := (List.nodup_cons.mp h3).2
    by_cases ha : a = s.nextIndexToReturn
    · obtain ⟨d1, d2, d3, d4, d5, d6⟩ :=
        drainPool_spec s.outOfOrder.length s.outOfOrder (le_refl _) h1
          (s.nextIndexToReturn + 1)
      have hstep : poolStep s a =
          ({ nextIndexToReturn := (drainPool (s.nextIndexToReturn + 1) s.outOfOrder).1,
             outOfOrder := (drainPool (s.nextIndexToReturn + 1) s.outOfOrder).2.1 },
           a :: (drainPool (s.nextIndexToReturn + 1) s.outOfOrder).2.2) := by
        rw [poolStep, if_pos ha]
      have hbuf : ∀ i ∈ (drainPool (s.nextIndexToReturn + 1) s.outOfOrder).2.1,
          (drainPool (s.nextIndexToReturn + 1) s.outOfOrder).1 < i := by
        intro i hi
        obtain ⟨hib, hno⟩ := (d3 i).mp hi
        have hgt := h2 i hib
        have hne : i ≠ (drainPool (s.nextIndexToReturn + 1) s.outOfOrder).1 := by
          intro he
          rw [he] at hi
          exact d4 hi
        omega
      have hrest_cond : ∀ b ∈ rest,
          b ∉ (drainPool (s.nextIndexToReturn + 1) s.outOfOrder).2.1 ∧
          (drainPool (s.nextIndexToReturn + 1) s.outOfOrder).1 ≤ b := by
        intro b hb
        have hb4 := h4 b (List.mem_cons_of_mem a hb)
        constructor
        · intro hmem
          exact hb4.1 ((d3 b).mp hmem).1
        · by_contra hlt
          have hge : s.nextIndexToReturn ≤ b := hb4.2
          have hbne : b ≠ a := fun he => hanr (he ▸ hb)
          have hmem : b ∈ s.outOfOrder := by
            apply d6 b
            · omega
            · omega
          exact hb4.1 hmem
      obtain ⟨i1, i2, i3, i4⟩ :=
        ih { nextIndexToReturn := (drainPool (s.nextIndexToReturn + 1) s.outOfOrder).1,
             outOfOrder := (drainPool (s.nextIndexToReturn + 1) s.outOfOrder).2.1 }
          d5 hbuf hrest_nd hrest_cond
      dsimp only at i1 i2 i3 i4
      rw [runPool, hstep]
      refine ⟨by dsimp only; omega, ?_, i3, i4⟩
      dsimp only
      rw [i2]
      have hout1 : a :: (drainPool (s.nextIndexToReturn + 1) s.outOfOrder).2.2 =
          List.range' s.nextIndexToReturn
            ((drainPool (s.nextIndexToReturn + 1) s.outOfOrder).1 - s.nextIndexToReturn) := by
        rw [d2, ha]
        have hsub : (drainPool (s.nextIndexToReturn + 1) s.outOfOrder).1 -
            s.nextIndexToReturn =
            ((drainPool (s.nextIndexToReturn + 1) s.outOfOrder).1 -
              (s.nextIndexToReturn + 1)) + 1 := by
          omega
        rw [hsub, List.range'_succ]
      rw [hout1]
      have happ := List.range'_append s.nextIndexToReturn
        ((drainPool (s.nextIndexToReturn + 1) s.outOfOrder).1 - s.nextIndexToReturn)
        ((runPool rest
          { nextIndexToReturn := (drainPool (s.nextIndexToReturn + 1) s.outOfOrder).1,
            outOfOrder :=
              (drainPool (s.nextIndexToReturn + 1) s.outOfOrder).2.1 }).1.nextIndexToReturn -
          (drainPool (s.nextIndexToReturn + 1) s.outOfOrder).1) 1
      rw [one_mul] at happ
      have hidx : s.nextIndexToReturn +
          ((drainPool (s.nextIndexToReturn + 1) s.outOfOrder).1 - s.nextIndexToReturn) =
          (drainPool (s.nextIndexToReturn + 1) s.outOfOrder).1 := by
        omega
      rw [hidx] at happ
      rw [happ]
      congr 1
      omega
    · have hstep : poolStep s a =
          ({ nextIndexToReturn := s.nextIndexToReturn,
             outOfOrder := a :: s.outOfOrder }, []) := by
        rw [poolStep, if_neg ha]
      have ha4 := h4 a (List.mem_cons_self a rest)
      have hnd1 : (a :: s.outOfOrder).Nodup := List.nodup_cons.mpr ⟨ha4.1, h1⟩
      have hbuf : ∀ i ∈ a :: s.outOfOrder, s.nextIndexToReturn < i := by
        intro i hi
        rcases List.mem_cons.mp hi with he | hm
        · subst he
          omega
        · exact h2 i hm
      have hrest_cond : ∀ b ∈ rest, b ∉ a :: s.outOfOrder ∧ s.nextIndexToReturn ≤ b := by
        intro b hb
        have hb4 := h4 b (List.mem_cons_of_mem a hb)
        refine ⟨?_, hb4.2⟩
        intro hmem
        rcases List.mem_cons.mp hmem with he | hm
        · exact hanr (he ▸ hb)
        · exact hb4.1 hm
      obtain ⟨i1, i2, i3, i4⟩ :=
        ih { nextIndexToReturn := s.nextIndexToReturn, outOfOrder := a :: s.outOfOrder }
          hnd1 hbuf hrest_nd hrest_cond
      rw [runPool, hstep]
      exact ⟨i1, by simpa using i2, i3, i4⟩

/-- C7: over any sequence of distinct completed sequence indices, the
coordinator delivers indices `0, 1, 2, …` in strictly ascending order
with no gaps and no duplicates (the delivered list is exactly
`List.range` of its length), and every index still buffered in
`out_of_order_results` is strictly ahead of `next_index_to_return` —
an out-of-order completion is never surfaced early. -/
theorem C7_work_pool_in_order (arrivals : List Nat) (h : arrivals.Nodup) :
    (runPool arrivals { nextIndexToReturn := 0, outOfOrder := [] }).2 =
      List.range
        (runPool arrivals { nextIndexToReturn := 0, outOfOrder := [] }).2.length ∧
    (∀ i ∈ (runPool arrivals
        { nextIndexToReturn := 0, outOfOrder := [] }).1.outOfOrder,
      (runPool arrivals
        { nextIndexToReturn := 0, outOfOrder := [] }).1.nextIndexToReturn < i) := by
  obtain ⟨r1, r2, r3, r4⟩ :=
    runPool_spec arrivals { nextIndexToReturn := 0, outOfOrder := [] }
      (by simp) (by simp) h (by simp)
  refine ⟨?_, r4⟩
  rw [r2]
  simp [List.range_eq_range']

/-- Witness for C7 at a concrete arrival order. -/
theorem C7_work_pool_in_order_witness :
    ([2, 0, 1, 5] : List Nat).Nodup ∧
    (runPool [2, 0, 1, 5] { nextIndexToReturn := 0, outOfOrder := [] }).2 =
      List.range
        (runPool [2, 0, 1, 5] { nextIndexToReturn := 0, outOfOrder := [] }).2.length :=
  ⟨by decide, (C7_work_pool_in_order [2, 0, 1, 5] (by decide)).1⟩

/-! ### C9 -/

theorem ctz_odd (n : Nat) (h : n % 2 = 1) : ctz n = 0 := by
  rw [ctz]
  have hn : n ≠ 0 := by omega
  rw [if_neg hn, if_pos h]

theorem ctz_even (n : Nat) (hn : n ≠ 0) (h : n % 2 = 0) : ctz n = ctz (n / 2) + 1 := by
  rw [ctz, if_neg hn, if_neg (by omega)]

theorem ctz_double (n : Nat) (hn : n ≠ 0) : ctz (2 * n) = ctz n + 1 := by
  rw [ctz_even (2 * n) (by omega) (by omega)]
  congr 2
  omega

theorem ctz_two_pow_mul (v : Nat) (hv : v ≠ 0) :
    ∀ k, ctz (2 ^ k * v) = k + ctz v := by
  intro k
  induction k with
  | zero => simp
  | succ m ihm =>
    have h : 2 ^ (m + 1) * v = 2 * (2 ^ m * v) := by ring
    rw [h, ctz_double (2 ^ m * v) (by positivity), ihm]
    omega

theorem two_pow_ctz_le (n : Nat) (hn : n ≠ 0) : 2 ^ ctz n ≤ n := by
  induction n using Nat.strong_induction_on with
  | _ n ih =>
    rcases Nat.mod_two_eq_zero_or_one n with h | h
    · have h2 : n / 2 ≠ 0 := by omega
      rw [ctz_even n hn h, pow_succ]
      have hle := ih (n / 2) (Nat.div_lt_self (by omega) (by norm_num)) h2
      omega
    · rw [ctz_odd n h]
      omega

theorem ctz_lt_eight (u : Nat) (hu : u ≠ 0) (hlt : u < 256) : ctz u < 8 := by
  have h1 : 2 ^ ctz u ≤ u := two_pow_ctz_le u hu
  have h2 : (2 : Nat) ^ ctz u < 2 ^ 8 := by
    calc 2 ^ ctz u ≤ u := h1
    _ < 256 := hlt
    _ = 2 ^ 8 := by norm_num
  exact (Nat.pow_lt_pow_iff_right (by norm_num)).mp h2

theorem ctz_add_two_pow_mul :
    ∀ k u v, u ≠ 0 → u < 2 ^ k → ctz (u + 2 ^ k * v) = ctz u := by
  intro k
  induction k with
  | zero =>
    intro u v hu hlt
    omega
  | succ m ihm =>
    intro u v hu hlt
    rcases Nat.mod_two_eq_zero_or_one u with h | h
    · have hu2 : u / 2 ≠ 0 := by omega
      have hu_even : u = 2 * (u / 2) := by omega
      have hrw : u + 2 ^ (m + 1) * v = 2 * (u / 2 + 2 ^ m * v) := by
        calc u + 2 ^ (m + 1) * v = 2 * (u / 2) + 2 ^ (m + 1) * v := by omega
        _ = 2 * (u / 2) + 2 ^ m * 2 * v := by rw [pow_succ]
        _ = 2 * (u / 2 + 2 ^ m * v) := by ring
      have hlt2 : u / 2 < 2 ^ m := by
        rw [pow_succ] at hlt
        omega
      rw [hrw, ctz_double _ (by positivity), ihm (u / 2) v hu2 hlt2, ctz_even u hu h]
    · have hodd : (u + 2 ^ (m + 1) * v) % 2 = 1 := by
        have hp : (2 : Nat) ^ (m + 1) * v = 2 * (2 ^ m * v) := by rw [pow_succ]; ring
        omega
      rw [ctz_odd _ hodd, ctz_odd u h]

theorem wordLE_inj :
    ∀ l1 l2 : List Nat, l1.length = l2.length → (∀ b ∈ l1, b < 256) →
      (∀ b ∈ l2, b < 256) → wordLE l1 = wordLE l2 → l1 = l2 := by
  intro l1
  induction l1 with
  | nil =>
    intro l2 hlen _ _ _
    exact (List.length_eq_zero.mp hlen.symm).symm
  | cons a x ihx =>
    intro l2 hlen hb1 hb2 heq
    match l2 with
    | [] => exact absurd hlen (by simp)
    | b :: y =>
      rw [wordLE, wordLE] at heq
      have ha : a < 256 := hb1 a (List.mem_cons_self a x)
      have hb : b < 256 := hb2 b (List.mem_cons_self b y)
      have hab : a = b ∧ wordLE x = wordLE y := by omega
      have hxy : x = y := ihx y (by simpa using hlen)
        (fun c hc => hb1 c (List.mem_cons_of_mem a hc))
        (fun c hc => hb2 c (List.mem_cons_of_mem b hc)) hab.2
      rw [hab.1, hxy]

theorem ctz_xor_div_eight :
    ∀ l1 l2 : List Nat, l1.length = l2.length → (∀ b ∈ l1, b < 256) →
      (∀ b ∈ l2, b < 256) → l1 ≠ l2 →
      ctz (wordLE l1 ^^^ wordLE l2) / 8 = commonPrefixLen l1 l2 := by
  intro l1
  induction l1 with
  | nil =>
    intro l2 hlen _ _ hne
    exact absurd ((List.length_eq_zero.mp hlen.symm).symm) hne
  | cons a x ihx =>
    intro l2 hlen hb1 hb2 hne
    match l2 with
    | [] => exact absurd hlen (by simp)
    | b :: y =>
      have ha : a < 256 := hb1 a (List.mem_cons_self a x)
      have hb : b < 256 := hb2 b (List.mem_cons_self b y)
      have hx : ∀ c ∈ x, c < 256 := fun c hc => hb1 c (List.mem_cons_of_mem a hc)
      have hy : ∀ c ∈ y, c < 256 := fun c hc => hb2 c (List.mem_cons_of_mem b hc)
      have hsplit : wordLE (a :: x) ^^^ wordLE (b :: y) =
          (a ^^^ b) + 2 ^ 8 * (wordLE x ^^^ wordLE y) := by
        rw [wordLE, wordLE]
        have h256 : (256 : Nat) = 2 ^ 8 := by norm_num
        rw [h256]
        exact xor_add_two_pow_mul 8 a b (wordLE x) (wordLE y) (by omega) (by omega)
      rw [hsplit]
      by_cases hab : a = b
      · have hxyne : x ≠ y := by
          intro he
          exact hne (by rw [hab, he])
        have hwne : wordLE x ≠ wordLE y := fun he =>
          hxyne (wordLE_inj x y (by simpa using hlen) hx hy he)
        have hxor0 : a ^^^ b = 0 := by rw [hab]; exact Nat.xor_self b
        have hxorne : wordLE x ^^^ wordLE y ≠ 0 := fun he =>
          hwne (Nat.xor_eq_zero.mp he)
        rw [hxor0, zero_add, ctz_two_pow_mul _ hxorne 8]
        rw [commonPrefixLen, if_pos hab]
        have harith : (8 + ctz (wordLE x ^^^ wordLE y)) / 8 =
            ctz (wordLE x ^^^ wordLE y) / 8 + 1 := by omega
        rw [harith, ihx y (by simpa using hlen) hx hy hxyne]
      · have hxorne : a ^^^ b ≠ 0 := fun he => hab (Nat.xor_eq_zero.mp he)
        have hxorlt : a ^^^ b < 256 := by
          have h256 : (256 : Nat) = 2 ^ 8 := by norm_num
          rw [h256]
          exact Nat.xor_lt_two_pow (by omega) (by omega)
        rw [ctz_add_two_pow_mul 8 (a ^^^ b) _ hxorne (by omega)]
        have hlt8 := ctz_lt_eight (a ^^^ b) hxorne hxorlt
        rw [commonPrefixLen, if_neg hab]
        omega

theorem commonPrefixLen_le :
    ∀ l1 l2 : List Nat, commonPrefixLen l1 l2 ≤ min l1.length l2.length := by
  intro l1
  induction l1 with
  | nil =>
    intro l2
    rw [commonPrefixLen.eq_def]
    simp
  | cons a x ihx =>
    intro l2
    match l2 with
    | [] => rw [commonPrefixLen.eq_def]; simp
    | b :: y =>
      rw [commonPrefixLen]
      split
      · have := ihx y
        simp only [List.length_cons]
        omega
      · omega

theorem commonPrefixLen_lt_of_ne :
    ∀ l1 l2 : List Nat, l1.length = l2.length → l1 ≠ l2 →
      commonPrefixLen l1 l2 < l1.length := by
  intro l1
  induction l1 with
  | nil =>
    intro l2 hlen hne
    exact absurd ((List.length_eq_zero.mp hlen.symm).symm) hne
  | cons a x ihx =>
    intro l2 hlen hne
    match l2 with
    | [] => exact absurd hlen (by simp)
    | b :: y =>
      rw [commonPrefixLen]
      split
      · rename_i hab
        have hxyne : x ≠ y := by
          intro he
          exact hne (by rw [hab, he])
        have := ihx y (by simpa using hlen) hxyne
        simp only [List.length_cons]
        omega
      · simp

theorem commonPrefixLen_take_eq :
    ∀ (n : Nat) (l1 l2 : List Nat), l1.take n = l2.take n → n ≤ l1.length →
      n ≤ l2.length →
      commonPrefixLen l1 l2 = n + commonPrefixLen (l1.drop n) (l2.drop n) := by
  intro n
  induction n with
  | zero =>
    intro l1 l2 _ _ _
    simp
  | succ m ihm =>
    intro l1 l2 htake hlen1 hlen2
    match l1, l2 with
    | [], _ => simp at hlen1
    | _, [] => simp at hlen2
    | a :: x, b :: y =>
      rw [List.take_succ_cons, List.take_succ_cons] at htake
      have hab : a = b := by
        have := List.head_eq_of_cons_eq htake
        exact this
      have htx : x.take m = y.take m := List.tail_eq_of_cons_eq htake
      rw [commonPrefixLen, if_pos hab, List.drop_succ_cons, List.drop_succ_cons,
        ihm x y htx (by simpa using hlen1) (by simpa using hlen2)]
      omega

theorem commonPrefixLen_take_lt :
    ∀ (n : Nat) (l1 l2 : List Nat),
      commonPrefixLen (l1.take n) (l2.take n) < n →
      commonPrefixLen l1 l2 = commonPrefixLen (l1.take n) (l2.take n) := by
  intro n
  induction n with
  | zero =>
    intro l1 l2 h
    omega
  | succ m ihm =>
    intro l1 l2 h
    match l1, l2 with
    | [], l2 =>
      rw [List.take_nil, commonPrefixLen.eq_def]
      simp [commonPrefixLen.eq_def]
    | a :: x, [] =>
      rw [List.take_nil, commonPrefixLen.eq_def]
      simp [commonPrefixLen.eq_def]
    | a :: x, b :: y =>
      rw [List.take_succ_cons, List.take_succ_cons] at h ⊢
      simp only [commonPrefixLen] at h ⊢
      by_cases hab : a = b
      · rw [if_pos hab] at h ⊢
        rw [if_pos hab, ihm x y (by omega)]
      · rw [if_neg hab, if_neg hab]

theorem extend_match_safe_eq_aux :
    ∀ (n : Nat) (s1 s2 : List Nat), s1.length ≤ n → (∀ b ∈ s1, b < 256) →
      (∀ b ∈ s2, b < 256) → extend_match_safe s1 s2 = commonPrefixLen s1 s2 := by
  intro n
  induction n with
  | zero =>
    intro s1 s2 hlen _ _
    rw [extend_match_safe]
    rw [dif_neg (by simp only [WORD_SIZE]; omega)]
  | succ m ih =>
    intro s1 s2 hlen hb1 hb2
    rw [extend_match_safe]
    by_cases h8 : WORD_SIZE ≤ min s1.length s2.length
    · rw [dif_pos h8]
      dsimp only
      simp only [WORD_SIZE] at h8 ⊢
      have h81 : 8 ≤ s1.length := le_trans h8 (min_le_left _ _)
      have h82 : 8 ≤ s2.length := le_trans h8 (min_le_right _ _)
      have hlt1 : (s1.take 8).length = 8 := by
        rw [List.length_take]
        omega
      have hlt2 : (s2.take 8).length = 8 := by
        rw [List.length_take]
        omega
      have hbt1 : ∀ b ∈ s1.take 8, b < 256 := fun b hb => hb1 b (List.take_subset 8 s1 hb)
      have hbt2 : ∀ b ∈ s2.take 8, b < 256 := fun b hb => hb2 b (List.take_subset 8 s2 hb)
      by_cases heq : wordLE (s1.take 8) = wordLE (s2.take 8)
      · rw [if_pos heq]
        have htake : s1.take 8 = s2.take 8 :=
          wordLE_inj (s1.take 8) (s2.take 8) (by omega) hbt1 hbt2 heq
        rw [commonPrefixLen_take_eq 8 s1 s2 htake h81 h82]
        congr 1
        apply ih (s1.drop 8) (s2.drop 8)
        · rw [List.length_drop]
          omega
        · exact fun b hb => hb1 b (List.drop_subset 8 s1 hb)
        · exact fun b hb => hb2 b (List.drop_subset 8 s2 hb)
      · rw [if_neg heq]
        have htne : s1.take 8 ≠ s2.take 8 := fun he => heq (by rw [he])
        rw [ctz_xor_div_eight (s1.take 8) (s2.take 8) (by omega) hbt1 hbt2 htne]
        have hcplt : commonPrefixLen (s1.take 8) (s2.take 8) < 8 := by
          have := commonPrefixLen_lt_of_ne (s1.take 8) (s2.take 8) (by omega) htne
          omega
        exact (commonPrefixLen_take_lt 8 s1 s2 (by omega)).symm
    · rw [dif_neg h8]

/-- C9: the match-extension helper is a pure common-prefix length
function: for all byte slices, the word-at-a-time `extend_match_safe`
(comparing 8 bytes at a time and recovering the answer from
`trailing_zeros / 8` on the first differing word) returns exactly the
byte-by-byte common-prefix length, which is bounded by the shorter
slice. -/
theorem C9_extend_match_safe_prefix_len (s1 s2 : List Nat)
    (hb1 : ∀ b ∈ s1, b < 256) (hb2 : ∀ b ∈ s2, b < 256) :
    extend_match_safe s1 s2 = commonPrefixLen s1 s2 ∧
    commonPrefixLen s1 s2 ≤ min s1.length s2.length :=
  ⟨extend_match_safe_eq_aux s1.length s1 s2 (le_refl _) hb1 hb2,
   commonPrefixLen_le s1 s2⟩

/-- Witness for C9 at concrete byte slices (ten bytes, differing at
index 8, so the word-at-a-time path with a full equal word and a
differing word is exercised). -/
theorem C9_extend_match_safe_prefix_len_witness :
    extend_match_safe [1, 2, 3, 4, 5, 6, 7, 8, 9, 10] [1, 2, 3, 4, 5, 6, 7, 8, 200, 10] =
      commonPrefixLen [1, 2, 3, 4, 5, 6, 7, 8, 9, 10] [1, 2, 3, 4, 5, 6, 7, 8, 200, 10] ∧
    commonPrefixLen [1, 2, 3, 4, 5, 6, 7, 8, 9, 10] [1, 2, 3, 4, 5, 6, 7, 8, 200, 10] = 8 :=
  ⟨(C9_extend_match_safe_prefix_len _ _ (by decide) (by decide)).1, by decide⟩

/-! ### C10 -/

/-- C10: the internal byte fetch of the range decoder is total: past the
end of the input both the buffered and the streaming `read_u8` return
the byte value 1 instead of surfacing an end-of-file error, and within
bounds they return the actual byte. -/
theorem C10_read_u8_total :
    (∀ b : RangeDecoderBuffer, b.buf.length ≤ b.pos →
      buffer_read_u8 b = (1, { buf := b.buf, pos := b.pos + 1 })) ∧
    (∀ (b : RangeDecoderBuffer) (h : b.pos < b.buf.length),
      buffer_read_u8 b = (b.buf.get ⟨b.pos, h⟩, { buf := b.buf, pos := b.pos + 1 })) ∧
    (stream_read_u8 [] = (1, [])) ∧
    (∀ b rest, stream_read_u8 (b :: rest) = (b, rest)) := by
  refine ⟨?_, ?_, rfl, fun b rest => rfl⟩
  · intro b h
    simp [buffer_read_u8, List.getD, List.getElem?_eq_none h]
  · intro b h
    simp [buffer_read_u8, List.getD, List.getElem?_eq_getElem h]

/-- Witness for C10 at concrete inputs. -/
theorem C10_read_u8_total_witness :
    buffer_read_u8 { buf := [9, 8], pos := 5 } = (1, { buf := [9, 8], pos := 6 }) ∧
    buffer_read_u8 { buf := [9, 8], pos := 1 } = (8, { buf := [9, 8], pos := 2 }) :=
  ⟨C10_read_u8_total.1 { buf := [9, 8], pos := 5 } (by decide),
   C10_read_u8_total.2.1 { buf := [9, 8], pos := 1 } (by decide)⟩

end LzmaRust
